import Mathlib

/-!
Verification of the Tauri capability & permission resolution engine.

Definitions below embed, in order:
* the data model of `tauri-utils` (`Target`, `Identifier`, `Capability`,
  `CapabilityContext`) as used by the sources under `core/tauri-utils`;
* the build-time capability validator `validate_capabilities` from
  `core/tauri-build/src/acl.rs`;
* the resolver / authorizer described by the specification (the concrete
  Rust resolver lives outside the provided sources);
* the mock context of `core/tauri/src/test/mod.rs`.
-/

namespace TauriAcl

/-- Target platform (`tauri_utils::platform::Target`).  The enumeration is the
one referenced by `default_platforms` in `capability.rs`: Linux, MacOS,
Windows, Android, Ios. -/
inductive Target where
  | Linux
  | MacOS
  | Windows
  | Android
  | Ios
deriving DecidableEq

/-- `tauri_utils::acl::Identifier`: wraps the raw `namespace:name` permission
string; `get` returns the inner string (used as `permission.get()` in
`acl.rs`). -/
structure Identifier where
  get : String
deriving DecidableEq

/-- Modelled from the spec: a Permission is an atomic grant with allowed and
denied commands, an optional opaque scope (allow-entries and deny-entries,
kept opaque as strings; both empty means no scope) and applicable platforms
(empty list = all platforms).  The concrete Rust type lives in
`tauri-utils`' acl module, outside the provided sources. -/
structure Permission where
  identifier : String
  description : Option String
  commands_allow : List String
  commands_deny : List String
  scope_allow : List String
  scope_deny : List String
  platforms : List Target
deriving DecidableEq

/-- Modelled from the spec: a PermissionSet is a named group expanding to a
list of local permission names (which may include `default`).  Its
description is non-optional, matching the `set.description` /
`default.description` uses in `acl.rs`. -/
structure PermissionSet where
  identifier : String
  description : String
  permissions : List String
deriving DecidableEq

/-- Modelled from the spec: a Manifest is the per-namespace catalog.
`permissions` and `permission_sets` model the `BTreeMap`s of `acl.rs` as
association lists, iterated in list order (a `BTreeMap` iterates in
strictly ascending key order; theorems that depend on that order carry it
as a hypothesis).  `default_permission` is the optional default permission
set. -/
structure Manifest where
  default_permission : Option PermissionSet
  permissions : List (String × Permission)
  permission_sets : List (String × PermissionSet)
deriving DecidableEq

/-- `BTreeMap::contains_key` on the association-list model. -/
def containsKey {α : Type} (m : List (String × α)) (k : String) : Bool :=
  m.any (fun kv => kv.1 == k)

/-- `str::split_once` on character lists: split at the first occurrence of
`c`, returning the parts before and after it, or `none` when `c` does not
occur. -/
def splitOnceAux (c : Char) : List Char → Option (List Char × List Char)
  | [] => none
  | x :: xs =>
    if x == c then some ([], xs)
    else
      match splitOnceAux c xs with
      | some (a, b) => some (x :: a, b)
      | none => none

/-- `str::split_once` as used by `permission.get().split_once(':')` in
`acl.rs`. -/
def splitOnce (s : String) (c : Char) : Option (String × String) :=
  match splitOnceAux c s.data with
  | some (a, b) => some (String.mk a, String.mk b)
  | none => none

/-- Execution context of a capability
(`tauri_utils::acl::capability::CapabilityContext`): `Local` (the serde
default) or `Remote` with a list of glob domain patterns. -/
inductive CapabilityContext where
  | Local : CapabilityContext
  | Remote (domains : List String) : CapabilityContext
deriving DecidableEq

/-- `tauri_utils::acl::capability::Capability`: identifier, description,
execution context, window glob patterns, granted permission identifiers and
applicable target platforms. -/
structure Capability where
  identifier : String
  description : String
  context : CapabilityContext
  windows : List String
  permissions : List Identifier
  platforms : List Target
deriving DecidableEq

/-- `default_platforms` from `capability.rs`: the serde default for the
`platforms` field. -/
def default_platforms : List Target :=
  [Target.Linux, Target.MacOS, Target.Windows, Target.Android, Target.Ios]

/-- A raw capability declaration as deserialized from a capability file:
`description`, `context` and `platforms` carry serde defaults in
`capability.rs` (`#[serde(default)]` and the `default_platforms` default),
modelled as `Option` fields where `none` means the
field was omitted from the declaration. -/
structure CapabilityDecl where
  identifier : String
  description : Option String
  context : Option CapabilityContext
  windows : List String
  permissions : List Identifier
  platforms : Option (List Target)
deriving DecidableEq

/-- Deserialization of a capability declaration: omitted fields receive their
serde defaults (`String::default()` for the description,
`CapabilityContext::default()` = `Local` for the context, and
`default_platforms()` for the platforms), per the attributes on
`Capability` in `capability.rs`. -/
def Capability.fromDecl (d : CapabilityDecl) : Capability :=
  { identifier := d.identifier
    description := d.description.getD ""
    context := d.context.getD CapabilityContext.Local
    windows := d.windows
    permissions := d.permissions
    platforms := d.platforms.getD default_platforms }

/-- The manifest lookup of `validate_capabilities` (`acl.rs:137-147`): given
the split `plugin_name:permission_name`, the permission exists when the
plugin has a registered manifest and either the name is `default` and the
manifest has a default permission, or the name is a key of the manifest's
`permissions` or `permission_sets` map.  `unwrap_or(false)` makes a missing
manifest count as non-existing. -/
def permission_exists (plugin_manifests : List (String × Manifest))
    (plugin_name permission_name : String) : Bool :=
  match List.lookup plugin_name plugin_manifests with
  | none => false
  | some manifest =>
    if permission_name == "default" then manifest.default_permission.isSome
    else
      containsKey manifest.permissions permission_name
        || containsKey manifest.permission_sets permission_name

/-- One iteration of the inner loop of `validate_capabilities`
(`acl.rs:135-169`): an identifier whose string has no `:` falls through the
`if let Some(..) = ...split_once(':')` and is skipped (the loop continues),
so it never fails validation; otherwise the split parts are checked with
`permission_exists`.  Returns `false` exactly when `acl.rs` would bail. -/
def identifier_ok (plugin_manifests : List (String × Manifest))
    (permission : Identifier) : Bool :=
  match splitOnce permission.get ':' with
  | none => true
  | some (plugin_name, permission_name) =>
    permission_exists plugin_manifests plugin_name permission_name

/-- The diagnostic list built by `validate_capabilities` on failure
(`acl.rs:150-161`): for each manifest, in iteration order, `plugin:default`
when a default permission is present, then `plugin:p` for every key of
`permissions`, then `plugin:p` for every key of `permission_sets`. -/
def available_permissions (plugin_manifests : List (String × Manifest)) :
    List String :=
  plugin_manifests.flatMap fun pm =>
    (if pm.2.default_permission.isSome then [pm.1 ++ ":default"] else [])
      ++ pm.2.permissions.map (fun p => pm.1 ++ ":" ++ p.1)
      ++ pm.2.permission_sets.map (fun p => pm.1 ++ ":" ++ p.1)

/-- `Vec::join(", ")` as used on `available_permissions` in `acl.rs:166`. -/
def joinComma : List String → String
  | [] => ""
  | [x] => x
  | x :: y :: rest => x ++ ", " ++ joinComma (y :: rest)

/-- The `anyhow::bail!` message of `acl.rs:163-167`. -/
def not_found_message (plugin_manifests : List (String × Manifest))
    (permission : Identifier) : String :=
  "Permission " ++ permission.get ++ " not found, expected one of "
    ++ joinComma (available_permissions plugin_manifests)

/-- The inner `for permission in &capability.permissions` loop of
`validate_capabilities`: stop at the first failing identifier with the
diagnostic message, succeed when all pass. -/
def check_permissions (plugin_manifests : List (String × Manifest)) :
    List Identifier → Except String Unit
  | [] => Except.ok ()
  | p :: rest =>
    if identifier_ok plugin_manifests p then
      check_permissions plugin_manifests rest
    else Except.error (not_found_message plugin_manifests p)

/-- `validate_capabilities` from `acl.rs:124-174`, with the target platform
(read in Rust from the `TARGET` environment variable via
`Target::from_triple`) passed explicitly.  Capabilities are the values of
the `BTreeMap`, in iteration order; a capability whose `platforms` does not
contain the target is skipped (`continue`). -/
def validate_capabilities (plugin_manifests : List (String × Manifest))
    (capabilities : List Capability) (target : Target) : Except String Unit :=
  match capabilities with
  | [] => Except.ok ()
  | c :: rest =>
    if c.platforms.contains target then
      match check_permissions plugin_manifests c.permissions with
      | Except.ok () => validate_capabilities plugin_manifests rest target
      | Except.error e => Except.error e
    else validate_capabilities plugin_manifests rest target

/-- Whether `needle` occurs as a contiguous substring of `haystack` (Boolean
helper for `Target.from_triple`). -/
def substrB (needle haystack : String) : Bool :=
  decide (needle.data <:+: haystack.data)

/-- Modelled from the spec: the platform is derived once at startup from the
target triple (`Target::from_triple`, `tauri-utils`' platform module is
outside the provided sources); the triple is inspected for the
platform-identifying component, defaulting to Linux. -/
def Target.from_triple (triple : String) : Target :=
  if substrB "darwin" triple then Target.MacOS
  else if substrB "windows" triple then Target.Windows
  else if substrB "android" triple then Target.Android
  else if substrB "ios" triple then Target.Ios
  else Target.Linux

/-- The process environment as far as `validate_capabilities` reads it: a map
from variable names to optional values (`std::env::var`). -/
def EnvMap : Type := String → Option String

/-- `validate_capabilities` including its one environment read
(`acl.rs:128`): the target is `Target::from_triple` of the `TARGET`
variable; a missing `TARGET` makes the Rust code panic (`unwrap`), modelled
as `none`. -/
def validate_capabilities_env (env : EnvMap)
    (plugin_manifests : List (String × Manifest))
    (capabilities : List Capability) : Option (Except String Unit) :=
  (env "TARGET").map fun triple =>
    validate_capabilities plugin_manifests capabilities (Target.from_triple triple)

/-- Modelled from the spec (§4.4, §8, design notes): glob matching for window
labels and domains; `*` matches any (possibly empty) run of characters (the
rest of the pattern must match some suffix of the string), every other
pattern character matches itself. -/
def globMatchAux : List Char → List Char → Bool
  | [], s => s.isEmpty
  | p :: ps, s =>
    if p == '*' then s.tails.any (fun t => globMatchAux ps t)
    else
      match s with
      | [] => false
      | c :: cs => p == c && globMatchAux ps cs

/-- Glob match on strings. -/
def globMatch (pat s : String) : Bool :=
  globMatchAux pat.data s.data

/-- Lower-casing of a string, character by character. -/
def lowerStr (s : String) : String :=
  String.mk (s.data.map Char.toLower)

/-- Modelled from the spec (§4.4): domain matching is a case-insensitive
glob-style host match. -/
def domainMatch (pat host : String) : Bool :=
  globMatch (lowerStr pat) (lowerStr host)

/-- Modelled from the spec (§4.5): the origin of an authorization query —
the local app origin, or a remote origin with its domain. -/
inductive Origin where
  | Local : Origin
  | Remote (domain : String) : Origin
deriving DecidableEq

/-- Modelled from the spec (§4.4, context handling): a `Local` capability
applies only to local origins; a `Remote` capability applies only to remote
origins whose domain matches one of its domain patterns. -/
def contextMatches (ctx : CapabilityContext) (origin : Origin) : Bool :=
  match ctx, origin with
  | CapabilityContext.Local, Origin.Local => true
  | CapabilityContext.Remote domains, Origin.Remote d =>
    domains.any (fun pat => domainMatch pat d)
  | _, _ => false

/-- Fuel bound for permission-set expansion: more than the number of names
declared by the manifest, so that any non-cyclic expansion completes. -/
def manifestSize (m : Manifest) : Nat :=
  m.permissions.length + m.permission_sets.length + 1

/-- Modelled from the spec (§4.2): expansion of a local name within one
manifest — `default` expands the default permission set, a permission name
yields that permission, a set name recursively expands its members.  The
recursion is bounded by fuel, standing for the visited-set cycle guard of
the spec (an exhausted path contributes nothing; the `CyclicPermissionSet`
error channel is not needed by the claims below). -/
def expandName (m : Manifest) : Nat → String → List Permission
  | 0, _ => []
  | Nat.succ fuel, name =>
    if name == "default" then
      match m.default_permission with
      | some s => s.permissions.flatMap (expandName m fuel)
      | none => []
    else
      match List.lookup name m.permissions with
      | some p => [p]
      | none =>
        match List.lookup name m.permission_sets with
        | some s => s.permissions.flatMap (expandName m fuel)
        | none => []

/-- Modelled from the spec (§4.2): resolve an identifier to its flat list of
concrete permissions — split it, look up the namespace's manifest and
expand the local name. -/
def resolveIdentifier (manifests : List (String × Manifest))
    (i : Identifier) : List Permission :=
  match splitOnce i.get ':' with
  | none => []
  | some (ns, name) =>
    match List.lookup ns manifests with
    | none => []
    | some m => expandName m (manifestSize m) name

/-- Modelled from the spec (§4.4 step 1): the flat ordered sequence of
concrete permissions granted by a capability. -/
def capPermissions (manifests : List (String × Manifest))
    (c : Capability) : List Permission :=
  c.permissions.flatMap (resolveIdentifier manifests)

/-- Modelled from the spec (§4.4): a capability contributes to a
(window, origin) query when its platforms contain the current target, one
of its window glob patterns matches the window label, and its context
matches the origin. -/
def appliesTo (c : Capability) (target : Target) (w : String)
    (origin : Origin) : Bool :=
  c.platforms.contains target
    && c.windows.any (fun pat => globMatch pat w)
    && contextMatches c.context origin

/-- Modelled from the spec (§4.4 steps 1-3): all concrete permissions
contributed to a (window, origin) query by the applicable capabilities. -/
def contributingPermissions (manifests : List (String × Manifest))
    (caps : List Capability) (target : Target) (w : String)
    (origin : Origin) : List Permission :=
  (caps.filter (fun c => appliesTo c target w origin)).flatMap
    (capPermissions manifests)

/-- Modelled from the spec (§3): one (window, context) entry of the Resolved
ACL — the allowed and denied command sets. -/
structure WindowAcl where
  allowed_commands : Finset String
  denied_commands : Finset String
deriving DecidableEq

/-- Modelled from the spec (§4.4 steps 3-4): union the allow and deny command
sets of every contributing permission, then recompute `allowed_commands` as
`allowed_commands - denied_commands` (deny precedence). -/
def resolveWindow (manifests : List (String × Manifest))
    (caps : List Capability) (target : Target) (w : String)
    (origin : Origin) : WindowAcl :=
  let ps := contributingPermissions manifests caps target w origin
  let allowed := (ps.flatMap Permission.commands_allow).toFinset
  let denied := (ps.flatMap Permission.commands_deny).toFinset
  { allowed_commands := allowed \ denied, denied_commands := denied }

/-- Modelled from the spec (§4.4 step 3, scope merge): the merged scope of a
command is the union of the scope allow-entries of the contributing
permissions that allow it, with deny-scope-entries suppressing matching
allow-entries independent of merge order, alongside the union of the
deny-entries. -/
def scopeFor (manifests : List (String × Manifest)) (caps : List Capability)
    (target : Target) (w : String) (origin : Origin) (cmd : String) :
    Finset String × Finset String :=
  let ps := (contributingPermissions manifests caps target w origin).filter
    (fun p => p.commands_allow.contains cmd)
  ((ps.flatMap Permission.scope_allow).toFinset
      \ (ps.flatMap Permission.scope_deny).toFinset,
    (ps.flatMap Permission.scope_deny).toFinset)

/-- Modelled from the spec (§4.5): the result of an authorization query. -/
inductive Authorization where
  | Allowed (scope : Finset String × Finset String) : Authorization
  | Denied : Authorization
deriving DecidableEq

/-- Modelled from the spec (§4.5): `authorize` is a pure read of the resolved
(window, context) entry — `Allowed` with the merged scope iff the command
is in `allowed_commands`, otherwise `Denied`. -/
def authorize (manifests : List (String × Manifest)) (caps : List Capability)
    (target : Target) (w cmd : String) (origin : Origin) : Authorization :=
  if cmd ∈ (resolveWindow manifests caps target w origin).allowed_commands then
    Authorization.Allowed (scopeFor manifests caps target w origin cmd)
  else Authorization.Denied

/-- Modelled from the spec (§3, §4.5): runtime execution context stored in a
Resolved ACL key — local, or remote with a domain pattern. -/
inductive ExecutionContext where
  | Local : ExecutionContext
  | Remote (domain : String) : ExecutionContext
deriving DecidableEq

/-- Modelled from the spec: a Resolved ACL key — command name plus execution
context. -/
structure CommandKey where
  name : String
  context : ExecutionContext
deriving DecidableEq

/-- Modelled from the spec: a resolved command entry — the window glob
patterns it applies to and an optional scope key into `command_scope`. -/
structure ResolvedCommand where
  windows : List String
  scope : Option Nat
deriving DecidableEq

/-- An opaque merged scope value: allow-entries and deny-entries. -/
structure ScopeValue where
  allow : List String
  deny : List String
deriving DecidableEq

/-- The resolved ACL structure as constructed in `test/mod.rs:127-132`: four
map fields (`allowed_commands`, `denied_commands`, `command_scope`,
`global_scope`), modelled as association lists; the concrete Rust type
(`tauri_utils::acl::resolved::Resolved`) is outside the provided sources,
its shape is modelled from the spec (§3) and the construction site. -/
structure Resolved where
  allowed_commands : List (CommandKey × ResolvedCommand)
  denied_commands : List (CommandKey × ResolvedCommand)
  command_scope : List (Nat × ScopeValue)
  global_scope : List (String × ScopeValue)
deriving DecidableEq

/-- Modelled from the spec (§4.5): whether a stored execution context matches
the query origin. -/
def execContextMatches (ctx : ExecutionContext) (origin : Origin) : Bool :=
  match ctx, origin with
  | ExecutionContext.Local, Origin.Local => true
  | ExecutionContext.Remote pat, Origin.Remote d => domainMatch pat d
  | _, _ => false

/-- Modelled from the spec (§4.5): whether a Resolved ACL entry matches a
(window, command, origin) query. -/
def entryMatches (e : CommandKey × ResolvedCommand) (w cmd : String)
    (origin : Origin) : Bool :=
  e.1.name == cmd && execContextMatches e.1.context origin
    && e.2.windows.any (fun pat => globMatch pat w)

/-- Modelled from the spec (§4.5): the result of a query against a prebuilt
Resolved ACL table. -/
inductive TableAuthorization where
  | Allowed (scope : Option ScopeValue) : TableAuthorization
  | Denied : TableAuthorization
deriving DecidableEq

/-- Modelled from the spec (§4.5): the pure table lookup of the runtime
authorizer — `Denied` when a denied entry matches, otherwise `Allowed` with
the scope of the first matching allowed entry, otherwise `Denied`. -/
def Resolved.authorize (acl : Resolved) (w cmd : String) (origin : Origin) :
    TableAuthorization :=
  if acl.denied_commands.any (fun e => entryMatches e w cmd origin) then
    TableAuthorization.Denied
  else
    match acl.allowed_commands.find? (fun e => entryMatches e w cmd origin) with
    | some e =>
      TableAuthorization.Allowed
        (e.2.scope.bind (fun k => List.lookup k acl.command_scope))
    | none => TableAuthorization.Denied

/-- The ACL-relevant part of `crate::Context` as built by `test/mod.rs`:
the assets and the resolved ACL (the configuration, icon and package
metadata fields of the full struct do not bear on the ACL claims). -/
structure Context (A : Type) where
  assets : A
  resolved_acl : Resolved

/-- `mock_context` from `test/mod.rs:97-134`: wraps the given assets and an
all-empty resolved ACL (every field `Default::default()`, the empty
map). -/
def mock_context {A : Type} (assets : A) : Context A :=
  { assets := assets
    resolved_acl :=
      { allowed_commands := []
        denied_commands := []
        command_scope := []
        global_scope := [] } }

/-- The domains named by a capability context (`Local` names none). -/
def CapabilityContext.domains : CapabilityContext → List String
  | CapabilityContext.Local => []
  | CapabilityContext.Remote ds => ds

/-- `needle` occurs as a contiguous substring of `haystack`. -/
abbrev strContains (haystack needle : String) : Prop :=
  needle.data <:+: haystack.data

/-- Every element of a list is a substring of its comma join. -/
lemma mem_infix_joinComma (l : List String) (x : String) (hx : x ∈ l) :
    x.data <:+: (joinComma l).data := by
  induction l with
  | nil => cases hx
  | cons y ys ih =>
    cases ys with
    | nil =>
      rcases List.mem_singleton.mp hx with rfl
      exact List.infix_rfl
    | cons z rest =>
      rcases List.mem_cons.mp hx with rfl | hmem
      · refine ⟨[], (", " ++ joinComma (z :: rest)).data, ?_⟩
        simp [joinComma, String.data_append]
      · have h1 := ih hmem
        have h2 : (joinComma (z :: rest)).data <:+
            (joinComma (y :: z :: rest)).data := by
          show (joinComma (z :: rest)).data <:+
            (y ++ ", " ++ joinComma (z :: rest)).data
          rw [String.data_append]
          exact List.suffix_append _ _
        exact h1.trans h2.isInfix

/-- Every valid identifier in the diagnostic list is a substring of the
not-found message. -/
lemma available_infix_message (m : List (String × Manifest)) (i : Identifier)
    (x : String) (hx : x ∈ available_permissions m) :
    strContains (not_found_message m i) x := by
  have h1 := mem_infix_joinComma _ _ hx
  have h2 : (joinComma (available_permissions m)).data <:+
      (not_found_message m i).data := by
    show (joinComma (available_permissions m)).data <:+
      ("Permission " ++ i.get ++ " not found, expected one of "
        ++ joinComma (available_permissions m)).data
    rw [String.data_append]
    exact List.suffix_append _ _
  exact h1.trans h2.isInfix

/-- `plugin:default` is in the diagnostic list for every manifest with a
default permission. -/
lemma default_mem_available {m : List (String × Manifest)}
    {pm : String × Manifest} (hpm : pm ∈ m)
    (hd : pm.2.default_permission.isSome = true) :
    (pm.1 ++ ":default") ∈ available_permissions m := by
  refine List.mem_flatMap.mpr ⟨pm, hpm, ?_⟩
  simp [hd]

/-- `plugin:p` is in the diagnostic list for every permissions-map key. -/
lemma perm_mem_available {m : List (String × Manifest)}
    {pm : String × Manifest} (hpm : pm ∈ m)
    {kv : String × Permission} (hkv : kv ∈ pm.2.permissions) :
    (pm.1 ++ ":" ++ kv.1) ∈ available_permissions m := by
  refine List.mem_flatMap.mpr ⟨pm, hpm, ?_⟩
  refine List.mem_append.mpr (Or.inl (List.mem_append.mpr (Or.inr ?_)))
  exact List.mem_map.mpr ⟨kv, hkv, rfl⟩

/-- `plugin:p` is in the diagnostic list for every permission-sets-map key. -/
lemma set_mem_available {m : List (String × Manifest)}
    {pm : String × Manifest} (hpm : pm ∈ m)
    {kv : String × PermissionSet} (hkv : kv ∈ pm.2.permission_sets) :
    (pm.1 ++ ":" ++ kv.1) ∈ available_permissions m := by
  refine List.mem_flatMap.mpr ⟨pm, hpm, ?_⟩
  refine List.mem_append.mpr (Or.inr ?_)
  exact List.mem_map.mpr ⟨kv, hkv, rfl⟩

/-- Any error of the inner identifier loop is a not-found message. -/
lemma check_permissions_error_shape {m : List (String × Manifest)}
    {ps : List Identifier} {msg : String}
    (h : check_permissions m ps = Except.error msg) :
    ∃ i, i ∈ ps ∧ identifier_ok m i = false ∧ msg = not_found_message m i := by
  induction ps with
  | nil => simp [check_permissions] at h
  | cons p rest ih =>
    by_cases hp : identifier_ok m p = true
    · rw [check_permissions, if_pos hp] at h
      rcases ih h with ⟨i, hi, hok, hmsg⟩
      exact ⟨i, List.mem_cons_of_mem _ hi, hok, hmsg⟩
    · rw [check_permissions, if_neg hp] at h
      refine ⟨p, List.mem_cons_self _ _, Bool.eq_false_iff.mpr hp, ?_⟩
      exact (Except.error.injEq _ _).mp h.symm

/-- Any error of `validate_capabilities` is a not-found message. -/
lemma validate_error_shape {m : List (String × Manifest)}
    {caps : List Capability} {target : Target} {msg : String}
    (h : validate_capabilities m caps target = Except.error msg) :
    ∃ i, identifier_ok m i = false ∧ msg = not_found_message m i := by
  induction caps with
  | nil => simp [validate_capabilities] at h
  | cons c rest ih =>
    rw [validate_capabilities] at h
    by_cases hplat : c.platforms.contains target = true
    · rw [if_pos hplat] at h
      cases hcp : check_permissions m c.permissions with
      | ok u =>
        cases u
        rw [hcp] at h
        exact ih h
      | error e =>
        rw [hcp] at h
        rcases check_permissions_error_shape hcp with ⟨i, _, hok, hmsg⟩
        cases h
        exact ⟨i, hok, hmsg⟩
    · rw [if_neg hplat] at h
      exact ih h

/-- If all identifier checks pass, the inner loop succeeds, and conversely. -/
lemma check_permissions_ok_iff {m : List (String × Manifest)}
    {ps : List Identifier} :
    check_permissions m ps = Except.ok () ↔
      ∀ i ∈ ps, identifier_ok m i = true := by
  induction ps with
  | nil => simp [check_permissions]
  | cons p rest ih =>
    by_cases hp : identifier_ok m p = true
    · rw [check_permissions, if_pos hp]
      simp [ih, hp]
    · rw [check_permissions, if_neg hp]
      simp only [List.mem_cons]
      constructor
      · intro h; cases h
      · intro h
        exact absurd (h p (Or.inl rfl)) hp

/-- Success of `validate_capabilities` on a cons cell, split into its
parts. -/
lemma validate_cons_ok {m : List (String × Manifest)} {c : Capability}
    {rest : List Capability} {target : Target}
    (h : validate_capabilities m (c :: rest) target = Except.ok ()) :
    validate_capabilities m rest target = Except.ok () ∧
      (c.platforms.contains target = true →
        check_permissions m c.permissions = Except.ok ()) := by
  rw [validate_capabilities] at h
  by_cases hplat : c.platforms.contains target = true
  · rw [if_pos hplat] at h
    cases hcp : check_permissions m c.permissions with
    | ok u =>
      cases u
      rw [hcp] at h
      exact ⟨h, fun _ => rfl⟩
    | error e =>
      rw [hcp] at h
      cases h
  · rw [if_neg hplat] at h
    exact ⟨h, fun hc => absurd hc hplat⟩

/-- C2.  Unknown-permission diagnostics are complete: any validation error
message contains `plugin:default` for every manifest with a default
permission and `plugin:p` for every key of every manifest's `permissions`
and `permission_sets` maps. -/
theorem validate_error_diagnostics_complete
    (manifests : List (String × Manifest)) (caps : List Capability)
    (target : Target) (msg : String)
    (herr : validate_capabilities manifests caps target = Except.error msg) :
    ∀ pm ∈ manifests,
      (pm.2.default_permission.isSome = true →
        strContains msg (pm.1 ++ ":default"))
      ∧ (∀ kv ∈ pm.2.permissions, strContains msg (pm.1 ++ ":" ++ kv.1))
      ∧ (∀ kv ∈ pm.2.permission_sets, strContains msg (pm.1 ++ ":" ++ kv.1)) := by
  rcases validate_error_shape herr with ⟨i, _, rfl⟩
  intro pm hpm
  refine ⟨fun hd => ?_, fun kv hkv => ?_, fun kv hkv => ?_⟩
  · exact available_infix_message _ _ _ (default_mem_available hpm hd)
  · exact available_infix_message _ _ _ (perm_mem_available hpm hkv)
  · exact available_infix_message _ _ _ (set_mem_available hpm hkv)

/-- Concrete permission used in witness scenarios. -/
def witPermission : Permission :=
  { identifier := "read"
    description := none
    commands_allow := ["read_file"]
    commands_deny := []
    scope_allow := []
    scope_deny := []
    platforms := [] }

/-- Concrete default permission set used in witness scenarios. -/
def witDefaultSet : PermissionSet :=
  { identifier := "default"
    description := "default set"
    permissions := ["read"] }

/-- Concrete permission set used in witness scenarios. -/
def witAllSet : PermissionSet :=
  { identifier := "all"
    description := "all"
    permissions := ["read"] }

/-- Concrete manifest used in witness scenarios: a default permission, one
permission `read` and one permission set `all`. -/
def witFsManifest : Manifest :=
  { default_permission := some witDefaultSet
    permissions := [("read", witPermission)]
    permission_sets := [("all", witAllSet)] }

/-- Concrete manifest registry used in witness scenarios: one plugin
`fs`. -/
def witManifests : List (String × Manifest) :=
  [("fs", witFsManifest)]

/-- A capability referencing an unknown permission `fs:write`. -/
def witBadCap : Capability :=
  { identifier := "bad"
    description := ""
    context := CapabilityContext.Local
    windows := ["main"]
    permissions := [{ get := "fs:write" }]
    platforms := [Target.Linux] }

/-- Witness for C2: on a concrete registry, validating a capability that
references the unknown `fs:write` fails and the message contains
`fs:default`, `fs:read` and `fs:all`. -/
theorem validate_error_diagnostics_complete_witness :
    strContains
      (not_found_message witManifests { get := "fs:write" }) "fs:default"
    ∧ strContains
      (not_found_message witManifests { get := "fs:write" }) "fs:read"
    ∧ strContains
      (not_found_message witManifests { get := "fs:write" }) "fs:all" := by
  have h := validate_error_diagnostics_complete witManifests [witBadCap]
    Target.Linux (not_found_message witManifests { get := "fs:write" })
    (by rfl) ("fs", witFsManifest) (by decide)
  refine ⟨h.1 (by decide), ?_, ?_⟩
  · exact h.2.1 ("read", witPermission) (by decide)
  · exact h.2.2 ("all", witAllSet) (by decide)

/-- C3.  Identifier resolution during validation: a `ns:name` identifier of a
capability applicable to the current platform passes validation iff a
manifest is registered under `ns` and either the name is `default` and the
manifest's default permission is present, or the name is a key of the
manifest's `permissions` or `permission_sets` map; when no manifest is
registered under `ns`, validation fails. -/
theorem identifier_resolution_iff
    (manifests : List (String × Manifest)) (cap : Capability)
    (target : Target) (i : Identifier) (ns name : String)
    (hperm : cap.permissions = [i])
    (hplat : cap.platforms.contains target = true)
    (hsplit : splitOnce i.get ':' = some (ns, name)) :
    ((validate_capabilities manifests [cap] target = Except.ok ()) ↔
      (∃ m, List.lookup ns manifests = some m ∧
        (if name = "default" then m.default_permission.isSome = true
         else (containsKey m.permissions name
            || containsKey m.permission_sets name) = true)))
    ∧ (List.lookup ns manifests = none →
        ∃ msg, validate_capabilities manifests [cap] target
          = Except.error msg) := by
  have hok : validate_capabilities manifests [cap] target = Except.ok () ↔
      identifier_ok manifests i = true := by
    rw [validate_capabilities, if_pos hplat, hperm]
    cases hcp : check_permissions manifests [i] with
    | ok u =>
      cases u
      have := check_permissions_ok_iff.mp hcp i (List.mem_singleton.mpr rfl)
      simp [validate_capabilities, this]
    | error e =>
      rcases check_permissions_error_shape hcp with ⟨j, hj, hjok, _⟩
      rcases List.mem_singleton.mp hj with rfl
      simp [hjok]
  have hid : identifier_ok manifests i
      = permission_exists manifests ns name := by
    rw [identifier_ok, hsplit]
  constructor
  · rw [hok, hid]
    rw [permission_exists]
    cases hlk : List.lookup ns manifests with
    | none =>
      simp only [hlk]
      constructor
      · intro h; cases h
      · rintro ⟨m, hm, _⟩; cases hm
    | some m =>
      simp only [hlk, Option.some.injEq]
      by_cases hdef : name = "default"
      · rw [if_pos (by simp [hdef])]
        constructor
        · intro h
          exact ⟨m, rfl, by simp [hdef, h]⟩
        · rintro ⟨m2, hm2, h2⟩
          subst hm2
          simpa [hdef] using h2
      · rw [if_neg (by simp [hdef])]
        constructor
        · intro h
          exact ⟨m, rfl, by simp only [if_neg hdef]; exact h⟩
        · rintro ⟨m2, hm2, h2⟩
          subst hm2
          rw [if_neg hdef] at h2
          exact h2
  · intro hnone
    cases hv : validate_capabilities manifests [cap] target with
    | ok u =>
      cases u
      have := hok.mp hv
      rw [hid, permission_exists, hnone] at this
      cases this
    | error e => exact ⟨e, rfl⟩

/-- Witness for C3: on the concrete registry, `fs:read` passes validation
and `gs:read` (no manifest under `gs`) fails. -/
theorem identifier_resolution_iff_witness :
    validate_capabilities witManifests
      [{ witBadCap with permissions := [{ get := "fs:read" }] }] Target.Linux
      = Except.ok ()
    ∧ ∃ msg, validate_capabilities witManifests
      [{ witBadCap with permissions := [{ get := "gs:read" }] }] Target.Linux
      = Except.error msg := by
  constructor
  · exact (identifier_resolution_iff witManifests
      { witBadCap with permissions := [{ get := "fs:read" }] }
      Target.Linux { get := "fs:read" } "fs" "read" rfl (by decide)
      (by decide)).1.mpr ⟨witFsManifest, by decide, by decide⟩
  · exact (identifier_resolution_iff witManifests
      { witBadCap with permissions := [{ get := "gs:read" }] }
      Target.Linux { get := "gs:read" } "gs" "read" rfl (by decide)
      (by decide)).2 (by decide)

/-- C4.  Platform filtering: a capability whose `platforms` list does not
contain the current target is skipped entirely (removing it from the input
does not change the validation result, so it can never cause a failure);
conversely, when validation succeeds, every identifier of every capability
whose `platforms` contains the target passed its check. -/
theorem platform_filtering
    (manifests : List (String × Manifest)) (target : Target) :
    (∀ (cap : Capability) (pre post : List Capability),
      cap.platforms.contains target = false →
        validate_capabilities manifests (pre ++ cap :: post) target
          = validate_capabilities manifests (pre ++ post) target)
    ∧ (∀ caps : List Capability,
        validate_capabilities manifests caps target = Except.ok () →
        ∀ cap ∈ caps, cap.platforms.contains target = true →
          ∀ i ∈ cap.permissions, identifier_ok manifests i = true) := by
  constructor
  · intro cap pre post hplat
    induction pre with
    | nil =>
      show validate_capabilities manifests (cap :: post) target = _
      rw [validate_capabilities, if_neg (by rw [hplat]; exact Bool.false_ne_true)]
      rfl
    | cons c rest ih =>
      show validate_capabilities manifests (c :: (rest ++ cap :: post)) target
        = validate_capabilities manifests (c :: (rest ++ post)) target
      rw [validate_capabilities, validate_capabilities]
      by_cases hc : c.platforms.contains target = true
      · rw [if_pos hc, if_pos hc]
        cases check_permissions manifests c.permissions with
        | ok u => cases u; exact ih
        | error e => rfl
      · rw [if_neg hc, if_neg hc]
        exact ih
  · intro caps hv cap hcap hplat i hi
    induction caps with
    | nil => cases hcap
    | cons c rest ih =>
      rcases validate_cons_ok hv with ⟨hrest, hhead⟩
      rcases List.mem_cons.mp hcap with rfl | hmem
      · exact check_permissions_ok_iff.mp (hhead hplat) i hi
      · exact ih hrest hmem

/-- A capability listing an unknown permission but restricted to Windows. -/
def witWinCap : Capability :=
  { identifier := "win-only"
    description := ""
    context := CapabilityContext.Local
    windows := ["main"]
    permissions := [{ get := "fs:doesNotExist" }]
    platforms := [Target.Windows] }

/-- Witness for C4: on a Linux target, a Windows-only capability with an
unknown permission is skipped (validation equals validation without it),
and a successful validation implies the applicable capability's identifier
passed its check. -/
theorem platform_filtering_witness :
    validate_capabilities witManifests [witWinCap] Target.Linux
      = validate_capabilities witManifests [] Target.Linux
    ∧ identifier_ok witManifests { get := "fs:read" } = true := by
  constructor
  · exact (platform_filtering witManifests Target.Linux).1 witWinCap [] []
      (by decide)
  · exact (platform_filtering witManifests Target.Linux).2
      [{ witBadCap with permissions := [{ get := "fs:read" }] }] (by rfl)
      { witBadCap with permissions := [{ get := "fs:read" }] }
      (List.mem_singleton.mpr rfl) (by decide)
      { get := "fs:read" } (List.mem_singleton.mpr rfl)

/-- A capability applicable to Linux listing an identifier with no `:`
separator. -/
def malformedCap : Capability :=
  { identifier := "malformed"
    description := ""
    context := CapabilityContext.Local
    windows := ["main"]
    permissions := [{ get := "nocolonhere" }]
    platforms := [Target.Linux] }

/-- Counterexample to C5: a capability applicable to the current platform
listing the colon-free identifier `nocolonhere` validates successfully —
`validate_capabilities` silently skips identifiers that fail the
`namespace:name` shape instead of rejecting them. -/
theorem malformed_identifier_not_fatal :
    validate_capabilities [] [malformedCap] Target.Linux = Except.ok () := by
  rfl

/-- C5 (amended).  A permission identifier string with no `:` separator is
skipped by capability validation, never resolved and never a cause of
failure: deleting it from a capability's permission list does not change
the validation result. -/
theorem malformed_identifier_skipped
    (manifests : List (String × Manifest)) (target : Target)
    (caps1 caps2 : List Capability) (cap : Capability)
    (pre post : List Identifier) (i : Identifier)
    (hsplit : splitOnce i.get ':' = none) :
    validate_capabilities manifests
        (caps1 ++ { cap with permissions := pre ++ i :: post } :: caps2) target
      = validate_capabilities manifests
        (caps1 ++ { cap with permissions := pre ++ post } :: caps2) target := by
  have hok : identifier_ok manifests i = true := by
    rw [identifier_ok, hsplit]
  have hcp : ∀ pre2 : List Identifier,
      check_permissions manifests (pre2 ++ i :: post)
        = check_permissions manifests (pre2 ++ post) := by
    intro pre2
    induction pre2 with
    | nil =>
      show check_permissions manifests (i :: post) = _
      rw [check_permissions, if_pos hok]
      rfl
    | cons p rest ih =>
      show check_permissions manifests (p :: (rest ++ i :: post)) = _
      simp only [check_permissions]
      rw [ih]
      rfl
  induction caps1 with
  | nil =>
    show validate_capabilities manifests
        ({ cap with permissions := pre ++ i :: post } :: caps2) target = _
    simp only [validate_capabilities]
    rw [hcp pre]
  | cons c rest ih =>
    show validate_capabilities manifests
        (c :: (rest ++ { cap with permissions := pre ++ i :: post } :: caps2))
        target = _
    simp only [validate_capabilities]
    rw [ih]
    rfl

/-- Witness for C5 (amended): dropping the colon-free identifier from a
concrete capability leaves the validation result unchanged. -/
theorem malformed_identifier_skipped_witness :
    validate_capabilities witManifests [malformedCap] Target.Linux
      = validate_capabilities witManifests
          [{ malformedCap with permissions := [] }] Target.Linux := by
  exact malformed_identifier_skipped witManifests Target.Linux [] []
    malformedCap [] [] { get := "nocolonhere" } (by decide)

/-- C6.  Validation depends only on its declared inputs: the result of
`validate_capabilities` including its single environment read is a function
of the manifests, the capabilities and the `TARGET` variable alone — two
environments agreeing on `TARGET` yield identical results, whatever else
they contain (and, the embedding being a pure function of immutable
inputs, equal inputs always yield equal results and the manifests and
capabilities are never modified). -/
theorem validate_depends_only_on_inputs
    (env1 env2 : EnvMap) (manifests : List (String × Manifest))
    (caps : List Capability) (h : env1 "TARGET" = env2 "TARGET") :
    validate_capabilities_env env1 manifests caps
      = validate_capabilities_env env2 manifests caps := by
  rw [validate_capabilities_env, validate_capabilities_env, h]

/-- An environment holding only `TARGET`. -/
def witEnvSmall : EnvMap :=
  fun v => if v == "TARGET" then some "x86_64-unknown-linux-gnu" else none

/-- An environment holding `TARGET` plus unrelated state. -/
def witEnvBig : EnvMap :=
  fun v =>
    if v == "TARGET" then some "x86_64-unknown-linux-gnu"
    else some "unrelated state"

/-- Witness for C6: two concrete environments differing everywhere except
`TARGET` validate a concrete input identically. -/
theorem validate_depends_only_on_inputs_witness :
    validate_capabilities_env witEnvSmall witManifests [witBadCap]
      = validate_capabilities_env witEnvBig witManifests [witBadCap] := by
  exact validate_depends_only_on_inputs witEnvSmall witEnvBig witManifests
    [witBadCap] rfl

/-- Strict lexicographic order on character lists: shorter prefixes first,
characters compared by code point. -/
def lexLtAux : List Char → List Char → Bool
  | [], [] => false
  | [], _ :: _ => true
  | _ :: _, [] => false
  | a :: as, b :: bs =>
    if a < b then true
    else if b < a then false
    else lexLtAux as bs

/-- Strict lexicographic order on strings. -/
def lexLt (s t : String) : Bool :=
  lexLtAux s.data t.data

/-- Lexicographic order on strings (total: `s ≤ t` iff not `t < s`). -/
def lexLe (s t : String) : Bool :=
  !(lexLt t s)

/-- The strict lexicographic order is irreflexive. -/
lemma lexLtAux_irrefl (l : List Char) : lexLtAux l l = false := by
  induction l with
  | nil => rfl
  | cons a as ih =>
    rw [lexLtAux, if_neg (lt_irrefl a), if_neg (lt_irrefl a)]
    exact ih

/-- The strict lexicographic order is asymmetric. -/
lemma lexLtAux_asymm {l1 l2 : List Char} (h : lexLtAux l1 l2 = true) :
    lexLtAux l2 l1 = false := by
  induction l1 generalizing l2 with
  | nil =>
    cases l2 with
    | nil => exact rfl
    | cons b bs => rfl
  | cons a as ih =>
    cases l2 with
    | nil => cases h
    | cons b bs =>
      rw [lexLtAux] at h
      rw [lexLtAux]
      by_cases hab : a < b
      · rw [if_neg (asymm hab), if_pos hab]
      · rw [if_neg hab] at h
        by_cases hba : b < a
        · rw [if_pos hba] at h
          cases h
        · rw [if_neg hba, if_neg hab]
          exact ih (by rw [if_neg hba] at h; exact h)

/-- Strict lexicographic order implies the non-strict one. -/
lemma lexLt_le {s t : String} (h : lexLt s t = true) : lexLe s t = true := by
  rw [lexLe, lexLt, lexLtAux_asymm h]
  rfl

/-- The non-strict lexicographic order is reflexive. -/
lemma lexLe_refl (s : String) : lexLe s s = true := by
  rw [lexLe, lexLt, lexLtAux_irrefl]
  rfl

/-- Counterexample to C7: on a registry whose `fs` manifest has a default
permission, a permission `read` and a permission set `all`, the diagnostic
list is `[fs:default, fs:read, fs:all]`, which is not lexicographically
sorted (`fs:all` sorts before `fs:read`). -/
theorem available_permissions_not_sorted :
    available_permissions witManifests = ["fs:default", "fs:read", "fs:all"]
    ∧ ¬ List.Pairwise (fun a b => lexLe a b = true)
        (available_permissions witManifests) := by
  constructor
  · rfl
  · decide

/-- The (plugin, name) pairs behind the diagnostic list of one manifest:
`default` first when present, then the permission keys, then the
permission-set keys, in map order. -/
def blockPairs (pm : String × Manifest) : List (String × String) :=
  (if pm.2.default_permission.isSome then [(pm.1, "default")] else [])
    ++ pm.2.permissions.map (fun p => (pm.1, p.1))
    ++ pm.2.permission_sets.map (fun p => (pm.1, p.1))

/-- The (plugin, name) pairs behind the whole diagnostic list. -/
def available_pairs (plugin_manifests : List (String × Manifest)) :
    List (String × String) :=
  plugin_manifests.flatMap blockPairs

/-- Every first component of a manifest's block is that manifest's plugin
name. -/
lemma blockPairs_fst {pm : String × Manifest} {x : String}
    (hx : x ∈ (blockPairs pm).map Prod.fst) : x = pm.1 := by
  rcases List.mem_map.mp hx with ⟨y, hy, rfl⟩
  rw [blockPairs] at hy
  rcases List.mem_append.mp hy with h | h
  · rcases List.mem_append.mp h with h2 | h2
    · by_cases hd : pm.2.default_permission.isSome = true
      · rw [if_pos hd] at h2
        rcases List.mem_singleton.mp h2 with rfl
        rfl
      · rw [if_neg hd] at h2
        cases h2
    · rcases List.mem_map.mp h2 with ⟨z, _, rfl⟩
      rfl
  · rcases List.mem_map.mp h with ⟨z, _, rfl⟩
    rfl

/-- First components of the diagnostic pairs are plugin names of the
registry. -/
lemma available_pairs_fst_mem {m : List (String × Manifest)} {x : String}
    (hx : x ∈ (available_pairs m).map Prod.fst) : x ∈ m.map Prod.fst := by
  rcases List.mem_map.mp hx with ⟨y, hy, rfl⟩
  rcases List.mem_flatMap.mp hy with ⟨pm, hpm, hblock⟩
  have := blockPairs_fst (List.mem_map.mpr ⟨y, hblock, rfl⟩)
  rw [this]
  exact List.mem_map.mpr ⟨pm, hpm, rfl⟩

/-- A list all of whose elements are equal is pairwise nondecreasing. -/
lemma pairwise_le_of_const {l : List String} {a : String}
    (h : ∀ x ∈ l, x = a) :
    List.Pairwise (fun x y => lexLe x y = true) l := by
  induction l with
  | nil => exact List.Pairwise.nil
  | cons x xs ih =>
    refine List.Pairwise.cons (fun y hy => ?_)
      (ih fun y hy => h y (List.mem_cons_of_mem _ hy))
    rw [h x (List.mem_cons_self _ _), h y (List.mem_cons_of_mem _ hy)]
    exact lexLe_refl a

/-- Joining a (plugin, name) pair with `:` — the strings of the diagnostic
list. -/
def pairJoin (x : String × String) : String :=
  x.1 ++ ":" ++ x.2

/-- The diagnostic strings of one manifest are the joined pairs of its
block. -/
lemma block_strings_eq (pm : String × Manifest) :
    (if pm.2.default_permission.isSome then [pm.1 ++ ":default"] else [])
      ++ pm.2.permissions.map (fun p => pm.1 ++ ":" ++ p.1)
      ++ pm.2.permission_sets.map (fun p => pm.1 ++ ":" ++ p.1)
      = (blockPairs pm).map pairJoin := by
  rw [blockPairs, List.map_append, List.map_append, List.map_map,
    List.map_map, apply_ite (List.map pairJoin)]
  have hdef : (pm.1 ++ ":default") = pairJoin (pm.1, "default") := by
    apply String.ext
    rw [pairJoin]
    rw [String.data_append, String.data_append, String.data_append,
      List.append_assoc]
    rfl
  rw [hdef]
  rfl

/-- The diagnostic list is the joined image of the diagnostic pairs. -/
lemma available_eq_pairs_map (m : List (String × Manifest)) :
    available_permissions m = (available_pairs m).map pairJoin := by
  induction m with
  | nil => rfl
  | cons pm rest ih =>
    simp only [available_permissions, available_pairs, List.flatMap_cons,
      List.map_append] at ih ⊢
    rw [ih, block_strings_eq]

/-- C7 (amended).  The diagnostic list is deterministic and grouped by
plugin: it is the image of the (plugin, name) pairs produced manifest by
manifest — `default` first when present, then the permission keys, then
the permission-set keys, each in map order — and with the registry keys in
strictly ascending order (as a `BTreeMap` iterates them) the plugin-name
components of the sequence are lexicographically nondecreasing; the full
`plugin:name` strings themselves are not in general lexicographically
sorted. -/
theorem available_permissions_grouped
    (manifests : List (String × Manifest))
    (hsorted : List.Pairwise (fun a b => lexLt a b = true)
      (manifests.map Prod.fst)) :
    available_permissions manifests
      = (available_pairs manifests).map pairJoin
    ∧ List.Pairwise (fun a b => lexLe a b = true)
        ((available_pairs manifests).map Prod.fst) := by
  refine ⟨available_eq_pairs_map manifests, ?_⟩
  induction manifests with
  | nil => exact List.Pairwise.nil
  | cons pm rest ih =>
    rw [List.map_cons] at hsorted
    rcases List.pairwise_cons.mp hsorted with ⟨hlt, hrest⟩
    rw [available_pairs, List.flatMap_cons, List.map_append]
    refine List.pairwise_append.mpr
      ⟨pairwise_le_of_const (fun x hx => blockPairs_fst hx), ?_, ?_⟩
    · exact ih hrest
    · intro a ha b hb
      rw [blockPairs_fst ha]
      have hbmem := available_pairs_fst_mem hb
      exact lexLt_le (hlt b hbmem)

/-- A second witness manifest under plugin name `as`. -/
def witAsManifest : Manifest :=
  { default_permission := none
    permissions := [("ping", witPermission)]
    permission_sets := [] }

/-- Witness for C7 (amended): a two-plugin registry with ascending keys
yields the grouped diagnostic list with nondecreasing plugin
components. -/
theorem available_permissions_grouped_witness :
    available_permissions [("as", witAsManifest), ("fs", witFsManifest)]
      = (available_pairs [("as", witAsManifest), ("fs", witFsManifest)]).map
          pairJoin
    ∧ List.Pairwise (fun a b => lexLe a b = true)
        ((available_pairs [("as", witAsManifest), ("fs", witFsManifest)]).map
          Prod.fst) := by
  exact available_permissions_grouped
    [("as", witAsManifest), ("fs", witFsManifest)] (by decide)

/-- C8.  Default platforms cover all known platforms: a capability
declaration that omits the `platforms` field receives exactly
`[Linux, MacOS, Windows, Android, Ios]`, so it is applicable on every
possible target platform. -/
theorem default_platforms_cover_all (d : CapabilityDecl)
    (h : d.platforms = none) :
    (Capability.fromDecl d).platforms
      = [Target.Linux, Target.MacOS, Target.Windows, Target.Android, Target.Ios]
    ∧ ∀ t : Target, (Capability.fromDecl d).platforms.contains t = true := by
  have hp : (Capability.fromDecl d).platforms = default_platforms := by
    rw [Capability.fromDecl, h]
    rfl
  refine ⟨hp, fun t => ?_⟩
  rw [hp]
  cases t <;> rfl

/-- A concrete declaration omitting `context` and `platforms`. -/
def witDecl : CapabilityDecl :=
  { identifier := "wit-decl"
    description := none
    context := none
    windows := ["main"]
    permissions := [{ get := "fs:read" }]
    platforms := none }

/-- Witness for C8: the concrete declaration omitting `platforms` receives
all five platforms and is applicable on each. -/
theorem default_platforms_cover_all_witness :
    (Capability.fromDecl witDecl).platforms
      = [Target.Linux, Target.MacOS, Target.Windows, Target.Android, Target.Ios]
    ∧ ∀ t : Target, (Capability.fromDecl witDecl).platforms.contains t = true := by
  exact default_platforms_cover_all witDecl rfl

/-- C9.  A capability declaration that omits the `context` field has context
`Local`, which names no remote domains. -/
theorem default_context_local (d : CapabilityDecl) (h : d.context = none) :
    (Capability.fromDecl d).context = CapabilityContext.Local
    ∧ (Capability.fromDecl d).context.domains = [] := by
  have hc : (Capability.fromDecl d).context = CapabilityContext.Local := by
    rw [Capability.fromDecl, h]
    rfl
  exact ⟨hc, by rw [hc]; rfl⟩

/-- Witness for C9: the concrete declaration omitting `context` gets the
`Local` context with no domains. -/
theorem default_context_local_witness :
    (Capability.fromDecl witDecl).context = CapabilityContext.Local
    ∧ (Capability.fromDecl witDecl).context.domains = [] := by
  exact default_context_local witDecl rfl

/-- C10.  The testing mock context always carries an empty resolved ACL: for
any assets, every field of `mock_context`'s `resolved_acl` is empty and
every authorization query against it is denied. -/
theorem mock_context_empty_acl (A : Type) (a : A) :
    (mock_context a).resolved_acl.allowed_commands = []
    ∧ (mock_context a).resolved_acl.denied_commands = []
    ∧ (mock_context a).resolved_acl.command_scope = []
    ∧ (mock_context a).resolved_acl.global_scope = []
    ∧ ∀ (w cmd : String) (origin : Origin),
        (mock_context a).resolved_acl.authorize w cmd origin
          = TableAuthorization.Denied := by
  refine ⟨rfl, rfl, rfl, rfl, fun w cmd origin => ?_⟩
  rfl

/-- Membership in the contributing permissions of a query. -/
lemma mem_contributing {manifests : List (String × Manifest)}
    {caps : List Capability} {target : Target} {w : String} {origin : Origin}
    {p : Permission} :
    p ∈ contributingPermissions manifests caps target w origin ↔
      ∃ c ∈ caps, appliesTo c target w origin = true
        ∧ p ∈ capPermissions manifests c := by
  rw [contributingPermissions]
  constructor
  · intro h
    rcases List.mem_flatMap.mp h with ⟨c, hc, hp⟩
    rcases List.mem_filter.mp hc with ⟨hcaps, happ⟩
    exact ⟨c, hcaps, happ, hp⟩
  · rintro ⟨c, hcaps, happ, hp⟩
    exact List.mem_flatMap.mpr ⟨c, List.mem_filter.mpr ⟨hcaps, happ⟩, hp⟩

/-- Permuting the capability list permutes the contributing permissions. -/
lemma contributing_perm (manifests : List (String × Manifest))
    {caps caps2 : List Capability} (target : Target) (w : String)
    (origin : Origin) (hperm : List.Perm caps caps2) :
    List.Perm (contributingPermissions manifests caps target w origin)
      (contributingPermissions manifests caps2 target w origin) :=
  List.Perm.flatMap_right _ (hperm.filter _)

/-- C1.  Deny precedence and order-independence: if any capability
contributing to a (window, origin) query grants a permission denying the
command, `authorize` answers `Denied` whatever the other capabilities
allow; and permuting the capability list before resolution changes no
`authorize` result. -/
theorem authorize_deny_precedence_order_independent
    (manifests : List (String × Manifest)) (caps : List Capability)
    (target : Target) (w cmd : String) (origin : Origin) :
    ((∃ c ∈ caps, appliesTo c target w origin = true
        ∧ ∃ p ∈ capPermissions manifests c, cmd ∈ p.commands_deny) →
      authorize manifests caps target w cmd origin = Authorization.Denied)
    ∧ (∀ caps2 : List Capability, List.Perm caps caps2 →
        authorize manifests caps target w cmd origin
          = authorize manifests caps2 target w cmd origin) := by
  constructor
  · rintro ⟨c, hc, happ, p, hp, hdeny⟩
    have hmem : p ∈ contributingPermissions manifests caps target w origin :=
      mem_contributing.mpr ⟨c, hc, happ, hp⟩
    have hden : cmd ∈ ((contributingPermissions manifests caps target w
        origin).flatMap Permission.commands_deny).toFinset :=
      List.mem_toFinset.mpr (List.mem_flatMap.mpr ⟨p, hmem, hdeny⟩)
    rw [authorize, if_neg]
    intro hall
    rw [resolveWindow] at hall
    exact (Finset.mem_sdiff.mp hall).2 hden
  · intro caps2 hperm
    have hCP := contributing_perm manifests target w origin hperm
    have hallow : ((contributingPermissions manifests caps target w
          origin).flatMap Permission.commands_allow).toFinset
        = ((contributingPermissions manifests caps2 target w
          origin).flatMap Permission.commands_allow).toFinset :=
      List.toFinset_eq_of_perm _ _ (hCP.flatMap_right _)
    have hdeny : ((contributingPermissions manifests caps target w
          origin).flatMap Permission.commands_deny).toFinset
        = ((contributingPermissions manifests caps2 target w
          origin).flatMap Permission.commands_deny).toFinset :=
      List.toFinset_eq_of_perm _ _ (hCP.flatMap_right _)
    have hres : resolveWindow manifests caps target w origin
        = resolveWindow manifests caps2 target w origin := by
      rw [resolveWindow, resolveWindow, hallow, hdeny]
    have hFP := hCP.filter (fun p => p.commands_allow.contains cmd)
    have hscope : scopeFor manifests caps target w origin cmd
        = scopeFor manifests caps2 target w origin cmd := by
      rw [scopeFor, scopeFor,
        List.toFinset_eq_of_perm _ _ (hFP.flatMap_right Permission.scope_allow),
        List.toFinset_eq_of_perm _ _ (hFP.flatMap_right Permission.scope_deny)]
    rw [authorize, authorize, hres, hscope]

/-- A permission denying `read_file`. -/
def witDenyPermission : Permission :=
  { identifier := "deny-read"
    description := none
    commands_allow := []
    commands_deny := ["read_file"]
    scope_allow := []
    scope_deny := []
    platforms := [] }

/-- A manifest registry with an allowing permission and a denying one. -/
def witDenyManifests : List (String × Manifest) :=
  [("fs",
    { default_permission := none
      permissions := [("read", witPermission), ("deny-read", witDenyPermission)]
      permission_sets := [] })]

/-- A capability granting `fs:read` to window `main`. -/
def witAllowCap : Capability :=
  { identifier := "allow-cap"
    description := ""
    context := CapabilityContext.Local
    windows := ["main"]
    permissions := [{ get := "fs:read" }]
    platforms := [Target.Linux] }

/-- A capability granting the denying `fs:deny-read` to window `main`. -/
def witDenyCap : Capability :=
  { identifier := "deny-cap"
    description := ""
    context := CapabilityContext.Local
    windows := ["main"]
    permissions := [{ get := "fs:deny-read" }]
    platforms := [Target.Linux] }

/-- Witness for C1: with one capability allowing `read_file` on `main` and
another denying it, the query is denied, and swapping the two capabilities
changes no result for this query. -/
theorem authorize_deny_precedence_order_independent_witness :
    authorize witDenyManifests [witAllowCap, witDenyCap] Target.Linux
        "main" "read_file" Origin.Local = Authorization.Denied
    ∧ authorize witDenyManifests [witAllowCap, witDenyCap] Target.Linux
        "main" "read_file" Origin.Local
      = authorize witDenyManifests [witDenyCap, witAllowCap] Target.Linux
        "main" "read_file" Origin.Local := by
  constructor
  · exact (authorize_deny_precedence_order_independent witDenyManifests
      [witAllowCap, witDenyCap] Target.Linux "main" "read_file"
      Origin.Local).1
      ⟨witDenyCap, by decide, by decide,
        witDenyPermission, by decide, by decide⟩
  · exact (authorize_deny_precedence_order_independent witDenyManifests
      [witAllowCap, witDenyCap] Target.Linux "main" "read_file"
      Origin.Local).2 [witDenyCap, witAllowCap] (List.Perm.swap _ _ _)

end TauriAcl
